import Mathlib

/-!
# HandlerStorage: the handler registry of the link proxy

A shallow embedding of `src/handlerstorage.cpp`.

* `QString` is modelled as a list of characters, `QStringList` as a list of
  strings and the member `m_Handlers` (a linked list of `HandlerInfo`) as a
  `List HandlerInfo`; every member function takes the list and returns the
  new list.
* Qt's case mapping is a library primitive, so it is taken as a parameter
  (`CaseMap`): `lower` stands for `QString::toLower` and `fold` for the
  case folding behind every `Qt::CaseInsensitive` comparison.  `asciiCase`
  is the instance used for concrete evaluation; it agrees with Qt on ASCII
  text.
* The settings file is the ordered array of records `(games, executable)`
  that `beginReadArray` / `setArrayIndex` / `value(..).toString()` deliver,
  the OS registration is the string read from
  `shell/open/command/Default`, and `QFile::exists` is a predicate on paths.
-/

namespace HandlerStorage

/-- A `QString`: a sequence of characters. -/
abbrev QString := List Char

/-- Qt's case mapping: `lower` is `QString::toLower`, `fold` the case folding
used by comparisons made with `Qt::CaseInsensitive`. -/
structure CaseMap where
  lower : QString → QString
  fold : QString → QString

/-- The case mapping restricted to ASCII letters. -/
def asciiCase : CaseMap := ⟨List.map Char.toLower, List.map Char.toLower⟩

/-- The record `HandlerInfo` kept in `m_Handlers`, with the three fields the
source reads and writes: `ID` (an `int`), `games` (a `QStringList`) and
`executable` (a `QString`). -/
structure HandlerInfo where
  ID : Int
  games : List QString
  executable : QString
deriving DecidableEq, Repr

/-- The test `a.compare(b, Qt::CaseInsensitive) == 0`. -/
def ciEq (cm : CaseMap) (a b : QString) : Bool :=
  decide (cm.fold a = cm.fold b)

/-- The call `list.contains(s, Qt::CaseInsensitive)` on a `QStringList`. -/
def containsCI (cm : CaseMap) (l : List QString) (s : QString) : Bool :=
  l.any (fun g => ciEq cm g s)

/-- The call `s.endsWith(t, Qt::CaseInsensitive)`. -/
def endsWithCI (cm : CaseMap) (s t : QString) : Bool :=
  decide (t.length ≤ s.length) && ciEq cm (s.drop (s.length - t.length)) t

/-- The loop of `QStringList::removeDuplicates`: an element already seen is
removed, so the first occurrence of every string stays, in order. -/
def removeDuplicatesFrom : List QString → List QString → List QString
  | _, [] => []
  | seen, x :: xs =>
    if x ∈ seen then removeDuplicatesFrom seen xs
    else x :: removeDuplicatesFrom (x :: seen) xs

/-- The call `QStringList::removeDuplicates`. -/
def removeDuplicates (l : List QString) : List QString :=
  removeDuplicatesFrom [] l

/-- The call `QStringList::join(sep)`. -/
def join (sep : QString) : List QString → QString
  | [] => []
  | [x] => x
  | x :: y :: rest => x ++ sep ++ join sep (y :: rest)

/-- The scan of `QString::split` for a one-character separator: `cur` is the
part read since the last separator; empty parts are kept. -/
def splitFrom (sep : Char) : QString → QString → List QString
  | cur, [] => [cur]
  | cur, c :: rest =>
    if c = sep then cur :: splitFrom sep [] rest
    else splitFrom sep (cur ++ [c]) rest

/-- The call `QString::split(sep)` for a one-character separator. -/
def split (sep : Char) (s : QString) : List QString :=
  splitFrom sep [] s

/-- The call `QString::remove(pos, n)`: the `n` characters from `pos` on are
taken out (fewer when the string ends before). -/
def remove (s : QString) (pos n : Nat) : QString :=
  s.take pos ++ s.drop (pos + n)

/-- The character class `[A-Za-z]`. -/
def isLetter (c : Char) : Bool :=
  (decide ('A' ≤ c) && decide (c ≤ 'Z')) || (decide ('a' ≤ c) && decide (c ≤ 'z'))

/-- The backward search of `lastIndexOf(QRegExp("[A-Za-z]"))` below position
`n`: the greatest index under `n` holding a letter, or `-1`. -/
def lastIndexBelow (s : QString) : Nat → Int
  | 0 => -1
  | n + 1 => if isLetter (s.getD n ' ') then (n : Int) else lastIndexBelow s n

/-- The call `s.lastIndexOf(QRegExp("[A-Za-z]"))`. -/
def lastIndexOfLetter (s : QString) : Int :=
  lastIndexBelow s s.length

/-- The loop `while (result.startsWith('"')) result.remove(0, 1)`. -/
def stripLeadingQuotes : QString → QString
  | [] => []
  | c :: rest => if c = '"' then stripLeadingQuotes rest else c :: rest

/-- The function `HandlerStorage::stripCall`. -/
def stripCall (call : QString) : QString :=
  let idx := lastIndexOfLetter call
  let result := if 0 ≤ idx then remove call (idx + 1).toNat call.length else call
  stripLeadingQuotes result

/-- The table `HandlerStorage::knownGames`. -/
def knownGames : List (QString × QString) :=
  [("Oblivion".toList, "oblivion".toList),
   ("Fallout 3".toList, "fallout3".toList),
   ("Fallout 4".toList, "fallout4".toList),
   ("Fallout NV".toList, "falloutnv".toList),
   ("Skyrim".toList, "skyrim".toList),
   ("SkyrimSE".toList, "skyrimse".toList),
   ("Other".toList, "other".toList)]

/-- Insertion of `info` at the front (`push_front`) or the back
(`push_back`) of the list. -/
def push (prepend : Bool) (info : HandlerInfo) (l : List HandlerInfo) : List HandlerInfo :=
  if prepend then info :: l else l ++ [info]

/-- The `for` loop of `registerHandler`: `before` holds the entries the
iterator has passed, the second list those from the iterator on.  At the
first entry whose executable equals `executable` without regard to case the
loop updates the list and returns it; `none` when the loop runs to the end. -/
def registerScan (cm : CaseMap) (gamesLower : List QString) (executable : QString)
    (prepend rereg : Bool) : List HandlerInfo → List HandlerInfo → Option (List HandlerInfo)
  | _, [] => none
  | before, h :: rest =>
    if ciEq cm h.executable executable then
      if rereg then
        some (push prepend ⟨h.ID, gamesLower, h.executable⟩ (before ++ rest))
      else
        some (before ++ ⟨h.ID, removeDuplicates (h.games ++ gamesLower), h.executable⟩ :: rest)
    else registerScan cm gamesLower executable prepend rereg (before ++ [h]) rest

/-- The function `HandlerStorage::registerHandler(games, executable, prepend,
rereg)` on the list `m_Handlers`.  The id of a new entry is
`static_cast<int>(m_Handlers.size())`; the size of a list that fits in memory
is far below `2^31`, so the cast is the size itself. -/
def registerHandler (cm : CaseMap) (m_Handlers : List HandlerInfo) (games : List QString)
    (executable : QString) (prepend rereg : Bool) : List HandlerInfo :=
  let gamesLower := games.map cm.lower
  match registerScan cm gamesLower executable prepend rereg [] m_Handlers with
  | some updated => updated
  | none => push prepend ⟨(m_Handlers.length : Int), gamesLower, executable⟩ m_Handlers

/-- The function `HandlerStorage::getHandler`. -/
def getHandler (cm : CaseMap) : List HandlerInfo → QString → QString
  | [], _ => []
  | info :: rest, game =>
    if containsCI cm info.games game then info.executable else getHandler cm rest game

/-- The first loop of `loadStore`: record number `i` becomes an entry with
`ID = i`, kept when its executable exists. -/
def loadRecords (fileExists : QString → Bool) :
    List (QString × QString) → Int → List HandlerInfo → List HandlerInfo
  | [], _, m_Handlers => m_Handlers
  | (games, executable) :: rest, i, m_Handlers =>
    loadRecords fileExists rest (i + 1)
      (if fileExists executable then m_Handlers ++ [⟨i, split ',' games, executable⟩]
       else m_Handlers)

/-- The loop of `loadStore` that sets `known`. -/
def isKnown (executable : QString) : List HandlerInfo → Bool → Bool
  | [], known => known
  | h :: rest, known => isKnown executable rest (if h.executable = executable then true else known)

/-- The entry `loadStore` builds for the handler registered with the OS. -/
def globalHandler (command : QString) (m_Handlers : List HandlerInfo) : HandlerInfo :=
  ⟨(m_Handlers.length : Int), knownGames.map Prod.snd, stripCall command⟩

/-- The function `HandlerStorage::loadStore`: `store` is the array
`handlers` of the settings file, `command` the value of
`shell/open/command/Default`. -/
def loadStore (cm : CaseMap) (fileExists : QString → Bool) (store : List (QString × QString))
    (command : QString) (m_Handlers : List HandlerInfo) : List HandlerInfo :=
  let loaded := loadRecords fileExists store 0 m_Handlers
  let info := globalHandler command loaded
  if !endsWithCI cm info.executable "nxmhandler.exe".toList then
    if !isKnown info.executable loaded false then loaded ++ [info] else loaded
  else loaded

/-- The function `HandlerStorage::saveStore`: the array written to the
settings file. -/
def saveStore (m_Handlers : List HandlerInfo) : List (QString × QString) :=
  m_Handlers.map (fun h => (join ",".toList h.games, h.executable))

/-- The registry a `HandlerStorage` object holds after its constructor. -/
def load (cm : CaseMap) (fileExists : QString → Bool) (store : List (QString × QString))
    (command : QString) : List HandlerInfo :=
  loadStore cm fileExists store command []

/-- No two entries of the list have executables equal without regard to
case. -/
def UniquePaths (cm : CaseMap) (l : List HandlerInfo) : Prop :=
  l.Pairwise (fun a b => ciEq cm a.executable b.executable = false)

instance (cm : CaseMap) (l : List HandlerInfo) : Decidable (UniquePaths cm l) := by
  unfold UniquePaths
  infer_instance

/-- The sequence of (executable, games) pairs of a registry. -/
def pairs (l : List HandlerInfo) : List (QString × List QString) :=
  l.map (fun h => (h.executable, h.games))

/-- A registry of three entries with unique paths; the entry at position 2
has the games `a` and `b`. -/
def exampleRegistry : List HandlerInfo :=
  [⟨0, ["skyrim".toList], "C:/first.exe".toList⟩,
   ⟨1, ["oblivion".toList], "C:/second.exe".toList⟩,
   ⟨2, ["a".toList, "b".toList], "C:/Tools/E.exe".toList⟩]

/-- One call of `registerHandler`: games, executable, prepend, rereg. -/
structure Call where
  games : List QString
  executable : QString
  prepend : Bool
  rereg : Bool

/-- The registry after a sequence of `registerHandler` calls. -/
def runCalls (cm : CaseMap) (m_Handlers : List HandlerInfo) (calls : List Call) :
    List HandlerInfo :=
  calls.foldl (fun m c => registerHandler cm m c.games c.executable c.prepend c.rereg) m_Handlers

/-! ## Case-insensitive comparison -/

theorem ciEq_comm (cm : CaseMap) (a b : QString) : ciEq cm a b = ciEq cm b a := by
  unfold ciEq
  by_cases h : cm.fold a = cm.fold b
  · simp [h]
  · have h2 : ¬ cm.fold b = cm.fold a := fun e => h e.symm
    simp [h, h2]

theorem ciEq_true_iff (cm : CaseMap) (a b : QString) :
    ciEq cm a b = true ↔ cm.fold a = cm.fold b := by
  simp [ciEq]

theorem ciEq_false_iff (cm : CaseMap) (a b : QString) :
    ciEq cm a b = false ↔ cm.fold a ≠ cm.fold b := by
  simp [ciEq]

/-! ## The scan of `registerHandler` -/

theorem registerScan_none (cm : CaseMap) (gl : List QString) (exe : QString) (p r : Bool)
    (before rest : List HandlerInfo)
    (h : ∀ x ∈ rest, ciEq cm x.executable exe = false) :
    registerScan cm gl exe p r before rest = none := by
  induction rest generalizing before with
  | nil => rfl
  | cons a t ih =>
    have ha : ciEq cm a.executable exe = false := h a (List.mem_cons_self _ _)
    simp only [registerScan, ha]
    exact ih _ (fun x hx => h x (List.mem_cons_of_mem _ hx))

theorem registerScan_first (cm : CaseMap) (gl : List QString) (exe : QString) (p r : Bool)
    (before pre : List HandlerInfo) (e : HandlerInfo) (post : List HandlerInfo)
    (hpre : ∀ x ∈ pre, ciEq cm x.executable exe = false)
    (he : ciEq cm e.executable exe = true) :
    registerScan cm gl exe p r before (pre ++ e :: post) =
      some (if r then push p ⟨e.ID, gl, e.executable⟩ (before ++ pre ++ post)
            else before ++ pre ++ ⟨e.ID, removeDuplicates (e.games ++ gl), e.executable⟩ :: post) := by
  induction pre generalizing before with
  | nil =>
    simp only [List.nil_append, registerScan, he, List.append_nil]
    cases r <;> simp
  | cons a t ih =>
    have ha : ciEq cm a.executable exe = false := hpre a (List.mem_cons_self _ _)
    simp only [List.cons_append, registerScan, ha, Bool.false_eq_true, if_false, List.append_eq]
    rw [ih (before ++ [a]) (fun x hx => hpre x (List.mem_cons_of_mem _ hx))]
    simp

/-- A list either has no entry for `exe`, or splits at its first entry for
`exe`. -/
theorem first_entry_split (cm : CaseMap) (exe : QString) (m : List HandlerInfo) :
    (∀ x ∈ m, ciEq cm x.executable exe = false) ∨
    ∃ pre e post, m = pre ++ e :: post ∧
      (∀ x ∈ pre, ciEq cm x.executable exe = false) ∧ ciEq cm e.executable exe = true := by
  induction m with
  | nil => left; intro x hx; cases hx
  | cons a t ih =>
    by_cases ha : ciEq cm a.executable exe = true
    · right
      exact ⟨[], a, t, rfl, (by intro x hx; cases hx), ha⟩
    · have ha2 : ciEq cm a.executable exe = false := by simpa using ha
      rcases ih with hall | ⟨pre, e, post, hm, hpre, he⟩
      · left
        intro x hx
        rcases List.mem_cons.mp hx with rfl | hx
        · exact ha2
        · exact hall x hx
      · right
        refine ⟨a :: pre, e, post, by rw [hm]; rfl, ?_, he⟩
        intro x hx
        rcases List.mem_cons.mp hx with rfl | hx
        · exact ha2
        · exact hpre x hx

/-- In a list with unique paths the entries before an entry for `exe` are
not entries for `exe`. -/
theorem unique_before (cm : CaseMap) (exe : QString) (m : List HandlerInfo) (i : Nat)
    (hi : i < m.length) (hu : UniquePaths cm m)
    (he : ciEq cm m[i].executable exe = true) :
    ∀ x ∈ m.take i, ciEq cm x.executable exe = false := by
  intro x hx
  have hsplit : m = m.take i ++ m[i] :: m.drop (i + 1) := by
    rw [← List.drop_eq_getElem_cons hi, List.take_append_drop]
  unfold UniquePaths at hu
  rw [hsplit, List.pairwise_append] at hu
  have h1 : ciEq cm x.executable m[i].executable = false :=
    hu.2.2 x hx m[i] (List.mem_cons_self _ _)
  by_contra hne
  have hx2 : ciEq cm x.executable exe = true := by simpa using hne
  rw [ciEq_true_iff] at hx2 he
  rw [ciEq_false_iff] at h1
  exact h1 (hx2.trans he.symm)

theorem registerHandler_at (cm : CaseMap) (m : List HandlerInfo) (games : List QString)
    (exe : QString) (p r : Bool) (i : Nat) (hi : i < m.length) (hu : UniquePaths cm m)
    (he : ciEq cm m[i].executable exe = true) :
    registerHandler cm m games exe p r =
      if r then push p ⟨m[i].ID, games.map cm.lower, m[i].executable⟩ (m.eraseIdx i)
      else m.set i ⟨m[i].ID, removeDuplicates (m[i].games ++ games.map cm.lower),
        m[i].executable⟩ := by
  have hsplit : m = m.take i ++ m[i] :: m.drop (i + 1) := by
    rw [← List.drop_eq_getElem_cons hi, List.take_append_drop]
  have hscan := registerScan_first cm (games.map cm.lower) exe p r [] (m.take i) m[i]
    (m.drop (i + 1)) (unique_before cm exe m i hi hu he) he
  rw [← hsplit] at hscan
  simp only [registerHandler, hscan, List.nil_append]
  rw [List.eraseIdx_eq_take_drop_succ, List.set_eq_take_append_cons_drop]
  simp [hi]

theorem registerHandler_absent (cm : CaseMap) (m : List HandlerInfo) (games : List QString)
    (exe : QString) (p r : Bool) (h : ∀ x ∈ m, ciEq cm x.executable exe = false) :
    registerHandler cm m games exe p r =
      push p ⟨(m.length : Int), games.map cm.lower, exe⟩ m := by
  simp only [registerHandler, registerScan_none cm (games.map cm.lower) exe p r [] m h]

/-! ## `removeDuplicates` -/

theorem removeDuplicatesFrom_spec (seen l : List QString) :
    (removeDuplicatesFrom seen l).Nodup ∧
    ∀ g, g ∈ removeDuplicatesFrom seen l ↔ g ∈ l ∧ g ∉ seen := by
  induction l generalizing seen with
  | nil => simp [removeDuplicatesFrom]
  | cons x xs ih =>
    by_cases hx : x ∈ seen
    · simp only [removeDuplicatesFrom, hx, if_true]
      refine ⟨(ih seen).1, fun g => ?_⟩
      rw [(ih seen).2 g, List.mem_cons]
      constructor
      · rintro ⟨h1, h2⟩
        exact ⟨Or.inr h1, h2⟩
      · rintro ⟨h1 | h1, h2⟩
        · exact absurd (h1 ▸ hx) h2
        · exact ⟨h1, h2⟩
    · simp only [removeDuplicatesFrom, hx, if_false]
      refine ⟨?_, fun g => ?_⟩
      · rw [List.nodup_cons]
        refine ⟨?_, (ih (x :: seen)).1⟩
        intro hmem
        rw [(ih (x :: seen)).2 x] at hmem
        exact hmem.2 (List.mem_cons_self _ _)
      · rw [List.mem_cons, (ih (x :: seen)).2 g, List.mem_cons, List.mem_cons]
        constructor
        · rintro (h1 | ⟨h1, h2⟩)
          · exact ⟨Or.inl h1, h1 ▸ hx⟩
          · exact ⟨Or.inr h1, fun h3 => h2 (Or.inr h3)⟩
        · rintro ⟨h1 | h1, h2⟩
          · exact Or.inl h1
          · by_cases hg : g = x
            · exact Or.inl hg
            · exact Or.inr ⟨h1, fun h3 => h3.elim hg h2⟩

theorem removeDuplicates_nodup (l : List QString) : (removeDuplicates l).Nodup :=
  (removeDuplicatesFrom_spec [] l).1

theorem mem_removeDuplicates (l : List QString) (g : QString) :
    g ∈ removeDuplicates l ↔ g ∈ l := by
  unfold removeDuplicates
  rw [(removeDuplicatesFrom_spec [] l).2 g]
  simp

/-! ## Uniqueness of paths -/

theorem uniquePaths_iff_map (cm : CaseMap) (l : List HandlerInfo) :
    UniquePaths cm l ↔
      (l.map HandlerInfo.executable).Pairwise (fun a b => ciEq cm a b = false) := by
  unfold UniquePaths
  rw [List.pairwise_map]

theorem uniquePaths_of_perm (cm : CaseMap) (l₁ l₂ : List HandlerInfo)
    (hp : (l₁.map HandlerInfo.executable).Perm (l₂.map HandlerInfo.executable))
    (h : UniquePaths cm l₁) : UniquePaths cm l₂ := by
  rw [uniquePaths_iff_map] at h ⊢
  refine (List.Perm.pairwise_iff ?_ hp).mp h
  intro x y hxy
  rw [ciEq_comm]
  exact hxy

theorem push_map_perm (p : Bool) (e : HandlerInfo) (l : List HandlerInfo) :
    ((push p e l).map HandlerInfo.executable).Perm (e.executable :: l.map HandlerInfo.executable) := by
  cases p
  · simp only [push, Bool.false_eq_true, if_false, List.map_append, List.map_cons, List.map_nil]
    exact List.perm_append_singleton _ _
  · simp only [push, if_true, List.map_cons]
    exact List.Perm.refl _

/-- One call of `registerHandler` keeps the paths unique. -/
theorem registerHandler_keeps_unique (cm : CaseMap) (m : List HandlerInfo)
    (games : List QString) (exe : QString) (p r : Bool) (hu : UniquePaths cm m) :
    UniquePaths cm (registerHandler cm m games exe p r) := by
  rcases first_entry_split cm exe m with hall | ⟨pre, e, post, hm, hpre, he⟩
  · rw [registerHandler_absent cm m games exe p r hall]
    refine uniquePaths_of_perm cm (⟨(m.length : Int), games.map cm.lower, exe⟩ :: m) _
      (push_map_perm p _ m).symm ?_
    unfold UniquePaths at hu ⊢
    rw [List.pairwise_cons]
    refine ⟨fun a ha => ?_, hu⟩
    rw [ciEq_comm]
    exact hall a ha
  · have hscan := registerScan_first cm (games.map cm.lower) exe p r [] pre e post hpre he
    rw [← hm] at hscan
    simp only [registerHandler, hscan, List.nil_append]
    cases r
    · simp only [Bool.false_eq_true, if_false]
      refine uniquePaths_of_perm cm m _ ?_ hu
      rw [hm]
      simp
    · simp only [if_true]
      refine uniquePaths_of_perm cm m _ ?_ hu
      rw [hm]
      refine List.Perm.trans ?_ (push_map_perm p _ (pre ++ post)).symm
      simp only [List.map_append, List.map_cons]
      exact List.perm_middle

theorem runCalls_keeps_unique (cm : CaseMap) (calls : List Call) (m : List HandlerInfo)
    (hu : UniquePaths cm m) : UniquePaths cm (runCalls cm m calls) := by
  induction calls generalizing m with
  | nil => exact hu
  | cons c cs ih =>
    simp only [runCalls, List.foldl_cons]
    exact ih _ (registerHandler_keeps_unique cm m c.games c.executable c.prepend c.rereg hu)

/-! ## Registration -/

/-- C1 (uniqueness): starting from the empty registry, after every finite
sequence of `registerHandler` calls with arbitrary arguments no two entries
of the handler list have executable paths that are equal when compared
without regard to case. -/
theorem registerHandler_unique_paths (cm : CaseMap) (calls : List Call) :
    UniquePaths cm (runCalls cm [] calls) :=
  runCalls_keeps_unique cm calls [] List.Pairwise.nil

/-- C5 (forced registration moves and replaces): in a registry with unique
paths whose entry number `i` has the path `exe` up to case, a call with
`rereg = true` takes that entry out and puts it back at the front (`prepend`)
or at the back (otherwise), with its games replaced by the lowercased new
games and its id and path kept; the other entries follow unchanged in their
old order, and the list keeps its length. -/
theorem registerHandler_force_moves (cm : CaseMap) (m : List HandlerInfo)
    (games : List QString) (exe : QString) (prepend : Bool) (i : Nat) (hi : i < m.length)
    (hu : UniquePaths cm m) (he : ciEq cm m[i].executable exe = true) :
    registerHandler cm m games exe prepend true =
      (if prepend then ⟨m[i].ID, games.map cm.lower, m[i].executable⟩ :: m.eraseIdx i
       else m.eraseIdx i ++ [⟨m[i].ID, games.map cm.lower, m[i].executable⟩]) ∧
    (registerHandler cm m games exe prepend true).length = m.length := by
  have h := registerHandler_at cm m games exe prepend true i hi hu he
  simp only [if_true, push] at h
  refine ⟨h, ?_⟩
  rw [h]
  have hlen : (m.eraseIdx i).length = m.length - 1 := List.length_eraseIdx_of_lt hi
  cases prepend
  · simp only [Bool.false_eq_true, if_false, List.length_append, List.length_singleton, hlen]
    omega
  · simp only [if_true, List.length_cons, hlen]
    omega

/-- The entry at position 2 of `exampleRegistry`, registered again with
`rereg = true` and `prepend = true` for the game `C` under the path
`c:/tools/e.exe`, moves to position 0 with the games `["c"]`. -/
theorem registerHandler_force_moves_witness :
    (2 < exampleRegistry.length ∧ UniquePaths asciiCase exampleRegistry ∧
      ciEq asciiCase "C:/Tools/E.exe".toList "c:/tools/e.exe".toList = true) ∧
    (registerHandler asciiCase exampleRegistry ["C".toList] "c:/tools/e.exe".toList true true =
      [⟨2, ["c".toList], "C:/Tools/E.exe".toList⟩,
       ⟨0, ["skyrim".toList], "C:/first.exe".toList⟩,
       ⟨1, ["oblivion".toList], "C:/second.exe".toList⟩] ∧
     (registerHandler asciiCase exampleRegistry ["C".toList] "c:/tools/e.exe".toList
        true true).length = 3) :=
  ⟨by decide,
   registerHandler_force_moves asciiCase exampleRegistry ["C".toList] "c:/tools/e.exe".toList
     true 2 (by decide) (by decide) (by decide)⟩

/-- C6 (union on soft registration): in a registry with unique paths whose
entry number `i` has the path `exe` up to case, a call with `rereg = false`
changes, for either value of `prepend`, nothing but the games of entry `i`,
which become `removeDuplicates` of the old games followed by the lowercased
new games: a list without repetition whose members are exactly the old games
and the lowercased new games. -/
theorem registerHandler_soft_union (cm : CaseMap) (m : List HandlerInfo)
    (games : List QString) (exe : QString) (prepend : Bool) (i : Nat) (hi : i < m.length)
    (hu : UniquePaths cm m) (he : ciEq cm m[i].executable exe = true) :
    registerHandler cm m games exe prepend false =
      m.set i ⟨m[i].ID, removeDuplicates (m[i].games ++ games.map cm.lower),
        m[i].executable⟩ ∧
    (registerHandler cm m games exe prepend false).length = m.length ∧
    (removeDuplicates (m[i].games ++ games.map cm.lower)).Nodup ∧
    ∀ g, g ∈ removeDuplicates (m[i].games ++ games.map cm.lower) ↔
      g ∈ m[i].games ∨ g ∈ games.map cm.lower := by
  have h := registerHandler_at cm m games exe prepend false i hi hu he
  simp only [Bool.false_eq_true, if_false] at h
  refine ⟨h, ?_, removeDuplicates_nodup _, fun g => ?_⟩
  · rw [h, List.length_set]
  · rw [mem_removeDuplicates, List.mem_append]

/-- The entry at position 2 of `exampleRegistry`, registered again with
`rereg = false` for the games `C` and `a`, stays at position 2 with the games
`["a", "b", "c"]`. -/
theorem registerHandler_soft_union_witness :
    (2 < exampleRegistry.length ∧ UniquePaths asciiCase exampleRegistry ∧
      ciEq asciiCase "C:/Tools/E.exe".toList "c:/tools/e.exe".toList = true) ∧
    (registerHandler asciiCase exampleRegistry ["C".toList, "a".toList]
        "c:/tools/e.exe".toList true false =
      [⟨0, ["skyrim".toList], "C:/first.exe".toList⟩,
       ⟨1, ["oblivion".toList], "C:/second.exe".toList⟩,
       ⟨2, ["a".toList, "b".toList, "c".toList], "C:/Tools/E.exe".toList⟩] ∧
     (registerHandler asciiCase exampleRegistry ["C".toList, "a".toList]
        "c:/tools/e.exe".toList true false).length = 3 ∧
     ["a".toList, "b".toList, "c".toList].Nodup ∧
     ∀ g, g ∈ ["a".toList, "b".toList, "c".toList] ↔
       g ∈ ["a".toList, "b".toList] ∨ g ∈ ["c".toList, "a".toList]) :=
  ⟨by decide,
   registerHandler_soft_union asciiCase exampleRegistry ["C".toList, "a".toList]
     "c:/tools/e.exe".toList true 2 (by decide) (by decide) (by decide)⟩

/-- C7 (new registration): when no entry of the registry has the path `exe`
up to case, `registerHandler` adds one entry whose id is the previous length
of the list, whose path is `exe` and whose games are the lowercased games, at
the front when `prepend` holds and at the back otherwise, and leaves the old
entries as they were; on the empty registry the call for `["Skyrim"]` and
`C:/h.exe` gives the single entry with id 0 and games `["skyrim"]`. -/
theorem registerHandler_new_entry (cm : CaseMap) (m : List HandlerInfo)
    (games : List QString) (exe : QString) (prepend rereg : Bool)
    (h : ∀ x ∈ m, ciEq cm x.executable exe = false) :
    registerHandler cm m games exe prepend rereg =
      (if prepend then ⟨(m.length : Int), games.map cm.lower, exe⟩ :: m
       else m ++ [⟨(m.length : Int), games.map cm.lower, exe⟩]) ∧
    registerHandler asciiCase [] ["Skyrim".toList] "C:/h.exe".toList false false =
      [⟨0, ["skyrim".toList], "C:/h.exe".toList⟩] := by
  refine ⟨?_, by decide⟩
  rw [registerHandler_absent cm m games exe prepend rereg h]
  rfl

/-- A path not yet in `exampleRegistry` is added at the front with id 3. -/
theorem registerHandler_new_entry_witness :
    (∀ x ∈ exampleRegistry, ciEq asciiCase x.executable "C:/new.exe".toList = false) ∧
    (registerHandler asciiCase exampleRegistry ["Skyrim".toList, "Other".toList]
        "C:/new.exe".toList true false =
      ⟨3, ["skyrim".toList, "other".toList], "C:/new.exe".toList⟩ :: exampleRegistry ∧
     registerHandler asciiCase [] ["Skyrim".toList] "C:/h.exe".toList false false =
      [⟨0, ["skyrim".toList], "C:/h.exe".toList⟩]) :=
  ⟨by decide,
   registerHandler_new_entry asciiCase exampleRegistry ["Skyrim".toList, "Other".toList]
     "C:/new.exe".toList true false (by decide)⟩

/-- C10 (failing input): on the empty registry the call for the games
`["skyrim", "Skyrim"]` stores the games `["skyrim", "skyrim"]`; the list of a
new entry is not passed through `removeDuplicates`. -/
theorem registerHandler_new_keeps_duplicates :
    runCalls asciiCase []
        [⟨["skyrim".toList, "Skyrim".toList], "C:/h.exe".toList, false, false⟩] =
      [⟨0, ["skyrim".toList, "skyrim".toList], "C:/h.exe".toList⟩] ∧
    ¬ (∀ e ∈ runCalls asciiCase []
        [⟨["skyrim".toList, "Skyrim".toList], "C:/h.exe".toList, false, false⟩],
        e.games.Nodup) := by
  decide

/-! ## Lookup -/

/-- C2 (priority): `getHandler` returns the executable of the first entry, in
list order, whose games contain the game without regard to case (no entry
before it contains the game), and the empty string when no entry contains it;
on the empty registry it returns the empty string for every game. -/
theorem getHandler_first_match (cm : CaseMap) (m : List HandlerInfo) (game : QString) :
    ((∃ pre e post, m = pre ++ e :: post ∧
        (∀ x ∈ pre, containsCI cm x.games game = false) ∧
        containsCI cm e.games game = true ∧ getHandler cm m game = e.executable) ∨
      ((∀ x ∈ m, containsCI cm x.games game = false) ∧ getHandler cm m game = [])) ∧
    getHandler cm [] game = [] := by
  refine ⟨?_, rfl⟩
  induction m with
  | nil => right; exact ⟨(by intro x hx; cases hx), rfl⟩
  | cons a t ih =>
    by_cases ha : containsCI cm a.games game = true
    · left
      exact ⟨[], a, t, rfl, (by intro x hx; cases hx), ha, by simp [getHandler, ha]⟩
    · have ha2 : containsCI cm a.games game = false := by simpa using ha
      have hget : getHandler cm (a :: t) game = getHandler cm t game := by
        simp [getHandler, ha2]
      rcases ih with ⟨pre, e, post, hm, hpre, he, hres⟩ | ⟨hall, hres⟩
      · left
        refine ⟨a :: pre, e, post, by rw [hm]; rfl, ?_, he, hget.trans hres⟩
        intro x hx
        rcases List.mem_cons.mp hx with rfl | hx
        · exact ha2
        · exact hpre x hx
      · right
        refine ⟨?_, hget.trans hres⟩
        intro x hx
        rcases List.mem_cons.mp hx with rfl | hx
        · exact ha2
        · exact hall x hx

/-! ## `stripCall` -/

theorem lastIndexBelow_none (s : QString) (h : ∀ d ∈ s, isLetter d = false) (n : Nat)
    (hn : n ≤ s.length) : lastIndexBelow s n = -1 := by
  induction n with
  | zero => rfl
  | succ k ih =>
    have hk : k < s.length := hn
    have hget : s.getD k ' ' = s[k] := List.getD_eq_getElem s ' ' hk
    have hl : isLetter (s.getD k ' ') = false := by
      rw [hget]
      exact h _ (List.getElem_mem _)
    simp only [lastIndexBelow, hl, Bool.false_eq_true, if_false]
    exact ih (Nat.le_of_lt hk)

theorem lastIndexBelow_after (pre post : QString) (c : Char) (hc : isLetter c = true)
    (hpost : ∀ d ∈ post, isLetter d = false) (k : Nat) (hk : k ≤ post.length) :
    lastIndexBelow (pre ++ c :: post) (pre.length + 1 + k) = (pre.length : Int) := by
  induction k with
  | zero =>
    have hget : (pre ++ c :: post).getD pre.length ' ' = c := by
      rw [List.getD_append_right pre (c :: post) ' ' pre.length (Nat.le_refl _)]
      simp
    show lastIndexBelow (pre ++ c :: post) (pre.length + 1) = (pre.length : Int)
    simp only [lastIndexBelow, hget, hc, if_true]
  | succ j ih =>
    have hj : j < post.length := hk
    have hget : (pre ++ c :: post).getD (pre.length + 1 + j) ' ' = post[j] := by
      rw [List.getD_append_right pre (c :: post) ' ' (pre.length + 1 + j) (by omega)]
      have h1 : pre.length + 1 + j - pre.length = j + 1 := by omega
      rw [h1, List.getD_cons_succ]
      exact List.getD_eq_getElem post ' ' hj
    have hl : isLetter ((pre ++ c :: post).getD (pre.length + 1 + j) ' ') = false := by
      rw [hget]
      exact hpost _ (List.getElem_mem _)
    show lastIndexBelow (pre ++ c :: post) (pre.length + 1 + j + 1) = (pre.length : Int)
    simp only [lastIndexBelow, hl, Bool.false_eq_true, if_false]
    exact ih (Nat.le_of_lt hj)

/-- A string either holds no letter, or splits at its last letter. -/
theorem last_letter_split (s : QString) :
    (∀ d ∈ s, isLetter d = false) ∨
    ∃ pre c post, s = pre ++ c :: post ∧ isLetter c = true ∧
      ∀ d ∈ post, isLetter d = false := by
  induction s with
  | nil => left; intro d hd; cases hd
  | cons a t ih =>
    rcases ih with hall | ⟨pre, c, post, ht, hc, hpost⟩
    · by_cases ha : isLetter a = true
      · right
        exact ⟨[], a, t, rfl, ha, hall⟩
      · left
        intro d hd
        rcases List.mem_cons.mp hd with rfl | hd
        · simpa using ha
        · exact hall d hd
    · right
      exact ⟨a :: pre, c, post, by rw [ht]; rfl, hc, hpost⟩

theorem stripLeadingQuotes_eq_dropWhile (s : QString) :
    stripLeadingQuotes s = s.dropWhile (fun c => c == '"') := by
  induction s with
  | nil => rfl
  | cons a t ih =>
    by_cases ha : a = '"'
    · simp [stripLeadingQuotes, ha, ih]
    · simp [stripLeadingQuotes, ha]

theorem stripCall_no_letter (s : QString) (h : ∀ d ∈ s, isLetter d = false) :
    stripCall s = s.dropWhile (fun c => c == '"') := by
  have hidx : lastIndexOfLetter s = -1 := lastIndexBelow_none s h s.length (Nat.le_refl _)
  simp only [stripCall, hidx]
  exact stripLeadingQuotes_eq_dropWhile s

theorem stripCall_last_letter (pre post : QString) (c : Char) (hc : isLetter c = true)
    (hpost : ∀ d ∈ post, isLetter d = false) :
    stripCall (pre ++ c :: post) = (pre ++ [c]).dropWhile (fun c => c == '"') := by
  have hidx : lastIndexOfLetter (pre ++ c :: post) = (pre.length : Int) := by
    have h := lastIndexBelow_after pre post c hc hpost post.length (Nat.le_refl _)
    have hlen : (pre ++ c :: post).length = pre.length + 1 + post.length := by
      rw [List.length_append, List.length_cons]
      omega
    unfold lastIndexOfLetter
    rw [hlen]
    exact h
  have hpos : (0 : Int) ≤ (pre.length : Int) := Int.ofNat_nonneg _
  have hnat : ((pre.length : Int) + 1).toNat = pre.length + 1 := by omega
  have htake : (pre ++ c :: post).take (pre.length + 1) = pre ++ [c] := by
    have h2 : pre ++ c :: post = (pre ++ [c]) ++ post := by simp
    rw [h2, List.take_append_eq_append_take]
    simp
  have hdrop : (pre ++ c :: post).drop (pre.length + 1 + (pre ++ c :: post).length) = [] := by
    apply List.drop_eq_nil_of_le
    omega
  simp only [stripCall, hidx, hpos, if_true, remove, hnat, htake, hdrop, List.append_nil]
  exact stripLeadingQuotes_eq_dropWhile _

/-- C9 (`stripCall`): a string without a letter of `[A-Za-z]` is returned
with its leading double quotes removed and nothing truncated; any other
string is cut immediately after its last letter and the leading double
quotes of what remains are removed.  The template `"C:\path\app.exe" "%1"`
gives `C:\path\app.exe`. -/
theorem stripCall_spec (call : QString) :
    (((∀ d ∈ call, isLetter d = false) ∧
        stripCall call = call.dropWhile (fun c => c == '"')) ∨
      (∃ pre c post, call = pre ++ c :: post ∧ isLetter c = true ∧
        (∀ d ∈ post, isLetter d = false) ∧
        stripCall call = (pre ++ [c]).dropWhile (fun c => c == '"'))) ∧
    stripCall "\"C:\\path\\app.exe\" \"%1\"".toList = "C:\\path\\app.exe".toList := by
  refine ⟨?_, by decide⟩
  rcases last_letter_split call with hall | ⟨pre, c, post, hs, hc, hpost⟩
  · left
    exact ⟨hall, stripCall_no_letter call hall⟩
  · right
    refine ⟨pre, c, post, hs, hc, hpost, ?_⟩
    rw [hs]
    exact stripCall_last_letter pre post c hc hpost

/-! ## `split` and `join` -/

theorem splitFrom_no_sep (sep : Char) (cur g : QString) (hg : sep ∉ g) :
    splitFrom sep cur g = [cur ++ g] := by
  induction g generalizing cur with
  | nil => simp [splitFrom]
  | cons a t ih =>
    have ha : a ≠ sep := fun e => hg (e ▸ List.mem_cons_self _ _)
    have ht : sep ∉ t := fun e => hg (List.mem_cons_of_mem _ e)
    simp only [splitFrom, ha, if_false]
    rw [ih (cur ++ [a]) ht]
    simp

theorem splitFrom_sep (sep : Char) (cur g rest : QString) (hg : sep ∉ g) :
    splitFrom sep cur (g ++ sep :: rest) = (cur ++ g) :: splitFrom sep [] rest := by
  induction g generalizing cur with
  | nil => simp [splitFrom]
  | cons a t ih =>
    have ha : a ≠ sep := fun e => hg (e ▸ List.mem_cons_self _ _)
    have ht : sep ∉ t := fun e => hg (List.mem_cons_of_mem _ e)
    simp only [List.cons_append, splitFrom, ha, if_false, List.append_eq]
    rw [ih (cur ++ [a]) ht]
    simp

/-- Splitting a joined list gives the list back when it is not empty and no
member holds the separator. -/
theorem split_join (gs : List QString) (hne : gs ≠ []) (hg : ∀ g ∈ gs, ',' ∉ g) :
    split ',' (join [','] gs) = gs := by
  induction gs with
  | nil => exact absurd rfl hne
  | cons a t ih =>
    have ha : ',' ∉ a := hg a (List.mem_cons_self _ _)
    cases t with
    | nil =>
      simp only [join, split]
      rw [splitFrom_no_sep ',' [] a ha]
      simp
    | cons y r =>
      have hrec := ih (by simp) (fun g hgm => hg g (List.mem_cons_of_mem _ hgm))
      have hj : join [','] (a :: y :: r) = a ++ ',' :: join [','] (y :: r) := by
        simp [join]
      rw [hj]
      unfold split at hrec ⊢
      rw [splitFrom_sep ',' [] a _ ha, hrec]
      simp

/-! ## Loading and saving -/

theorem loadRecords_pairs (fileExists : QString → Bool) (store : List (QString × QString))
    (i : Int) (m : List HandlerInfo) :
    pairs (loadRecords fileExists store i m) =
      pairs m ++ (store.filter (fun r => fileExists r.2)).map
        (fun r => (r.2, split ',' r.1)) := by
  induction store generalizing i m with
  | nil => simp [loadRecords]
  | cons r rest ih =>
    obtain ⟨g, e⟩ := r
    simp only [loadRecords]
    rw [ih]
    by_cases he : fileExists e = true
    · simp [he, pairs]
    · have he2 : fileExists e = false := by simpa using he
      simp [he2]

theorem loadRecords_exist (fileExists : QString → Bool) (store : List (QString × QString)) :
    ∀ h ∈ loadRecords fileExists store 0 [], fileExists h.executable = true := by
  intro h hmem
  have hp : (h.executable, h.games) ∈ pairs (loadRecords fileExists store 0 []) :=
    List.mem_map.mpr ⟨h, hmem, rfl⟩
  rw [loadRecords_pairs] at hp
  simp only [pairs, List.map_nil, List.nil_append, List.mem_map, List.mem_filter] at hp
  obtain ⟨r, ⟨_, hr⟩, heq⟩ := hp
  have h1 : r.2 = h.executable := congrArg Prod.fst heq
  rw [← h1]
  exact hr

theorem isKnown_eq (exe : QString) (l : List HandlerInfo) (known : Bool) :
    isKnown exe l known = (known || l.any (fun h => decide (h.executable = exe))) := by
  induction l generalizing known with
  | nil => simp [isKnown]
  | cons a t ih =>
    simp only [isKnown, List.any_cons]
    rw [ih]
    by_cases ha : a.executable = exe
    · simp [ha]
    · simp [ha]

theorem saveStore_filter (fileExists : QString → Bool) (m : List HandlerInfo)
    (hex : ∀ h ∈ m, fileExists h.executable = true) :
    (saveStore m).filter (fun r => fileExists r.2) = saveStore m := by
  rw [List.filter_eq_self]
  intro r hr
  simp only [saveStore, List.mem_map] at hr
  obtain ⟨h, hm, rfl⟩ := hr
  exact hex h hm

theorem loadRecords_saveStore (fileExists : QString → Bool) (m : List HandlerInfo)
    (hex : ∀ h ∈ m, fileExists h.executable = true)
    (hne : ∀ h ∈ m, h.games ≠ [])
    (hcomma : ∀ h ∈ m, ∀ g ∈ h.games, ',' ∉ g) :
    pairs (loadRecords fileExists (saveStore m) 0 []) = pairs m := by
  rw [loadRecords_pairs, saveStore_filter fileExists m hex]
  simp only [pairs, List.map_nil, List.nil_append, saveStore, List.map_map]
  apply List.map_congr_left
  intro h hm
  have hs : split ',' (join [','] h.games) = h.games :=
    split_join h.games (hne h hm) (hcomma h hm)
  simp [hs]

theorem loadStore_eq_of_known (cm : CaseMap) (fileExists : QString → Bool)
    (store : List (QString × QString)) (command : QString)
    (hos : endsWithCI cm (stripCall command) "nxmhandler.exe".toList = true ∨
      ∃ h ∈ loadRecords fileExists store 0 [], h.executable = stripCall command) :
    load cm fileExists store command = loadRecords fileExists store 0 [] := by
  simp only [load, loadStore, globalHandler]
  by_cases hend : endsWithCI cm (stripCall command) "nxmhandler.exe".toList = true
  · simp only [hend, Bool.not_true, Bool.false_eq_true, if_false]
  · rcases hos with hos | ⟨h, hm, he⟩
    · exact absurd hos hend
    · have hk : isKnown (stripCall command) (loadRecords fileExists store 0 []) false = true := by
        rw [isKnown_eq]
        simp only [Bool.false_or, List.any_eq_true, decide_eq_true_eq]
        exact ⟨h, hm, he⟩
      have hend2 : endsWithCI cm (stripCall command) "nxmhandler.exe".toList = false := by
        simpa using hend
      simp only [hend2, hk, Bool.not_false, Bool.not_true, Bool.false_eq_true, if_true,
        if_false]

theorem loadStore_cases (cm : CaseMap) (fileExists : QString → Bool)
    (store : List (QString × QString)) (command : QString) :
    load cm fileExists store command = loadRecords fileExists store 0 [] ∨
    load cm fileExists store command = loadRecords fileExists store 0 [] ++
      [⟨((loadRecords fileExists store 0 []).length : Int), knownGames.map Prod.snd,
        stripCall command⟩] := by
  simp only [load, loadStore, globalHandler]
  cases endsWithCI cm (stripCall command) "nxmhandler.exe".toList
  · cases isKnown (stripCall command) (loadRecords fileExists store 0 []) false
    · right; simp
    · left; simp
  · left; simp

/-- C3 (counterexample): with every executable present, saving and loading
the registry of the single entry `C:/h.exe` for `skyrim` gives two entries
when the OS names another program; an entry with no game comes back with the
one game `""`; and the game `a,b` comes back as the two games `a` and `b`. -/
theorem save_load_not_identity :
    (∀ h ∈ [(⟨0, ["skyrim".toList], "C:/h.exe".toList⟩ : HandlerInfo)],
      (fun _ => true) h.executable = true) ∧
    pairs (load asciiCase (fun _ => true)
        (saveStore [⟨0, ["skyrim".toList], "C:/h.exe".toList⟩])
        "\"C:\\nmm\\client.exe\" \"%1\"".toList) =
      [("C:/h.exe".toList, ["skyrim".toList]),
       ("C:\\nmm\\client.exe".toList, knownGames.map Prod.snd)] ∧
    pairs (load asciiCase (fun _ => true)
        (saveStore [⟨0, ["skyrim".toList], "C:/h.exe".toList⟩])
        "\"C:\\nmm\\client.exe\" \"%1\"".toList) ≠
      pairs [⟨0, ["skyrim".toList], "C:/h.exe".toList⟩] ∧
    pairs (load asciiCase (fun _ => true) (saveStore [⟨0, [], "C:/h.exe".toList⟩])
        "\"C:\\MO\\nxmhandler.exe\" \"%1\"".toList) =
      [("C:/h.exe".toList, [[]])] ∧
    pairs (load asciiCase (fun _ => true) (saveStore [⟨0, ["a,b".toList], "C:/h.exe".toList⟩])
        "\"C:\\MO\\nxmhandler.exe\" \"%1\"".toList) =
      [("C:/h.exe".toList, ["a".toList, "b".toList])] := by
  decide

/-- C3 (amended round trip): for a registry whose executables all exist,
whose entries each have at least one game and no game holding a comma, and
an OS command whose stripped form ends in `nxmhandler.exe` (up to case) or
is the executable of an entry, `saveStore` followed by the constructor's
`loadStore` gives back the same ordered sequence of (executable, games)
pairs. -/
theorem save_load_roundtrip (cm : CaseMap) (fileExists : QString → Bool)
    (m : List HandlerInfo) (command : QString)
    (hex : ∀ h ∈ m, fileExists h.executable = true)
    (hne : ∀ h ∈ m, h.games ≠ [])
    (hcomma : ∀ h ∈ m, ∀ g ∈ h.games, ',' ∉ g)
    (hos : endsWithCI cm (stripCall command) "nxmhandler.exe".toList = true ∨
      ∃ h ∈ m, h.executable = stripCall command) :
    pairs (load cm fileExists (saveStore m) command) = pairs m := by
  have hp := loadRecords_saveStore fileExists m hex hne hcomma
  rw [loadStore_eq_of_known cm fileExists (saveStore m) command ?_, hp]
  rcases hos with hos | ⟨h, hm, he⟩
  · exact Or.inl hos
  · right
    have hmem : (h.executable, h.games) ∈ pairs (loadRecords fileExists (saveStore m) 0 []) := by
      rw [hp]
      exact List.mem_map.mpr ⟨h, hm, rfl⟩
    obtain ⟨k, hk, hkeq⟩ := List.mem_map.mp hmem
    exact ⟨k, hk, (congrArg Prod.fst hkeq).trans he⟩

/-- A round trip at a concrete registry of two entries, the OS naming the
proxy itself. -/
theorem save_load_roundtrip_witness :
    ((∀ h ∈ [(⟨0, ["skyrim".toList], "C:/h.exe".toList⟩ : HandlerInfo),
          ⟨1, ["oblivion".toList, "other".toList], "C:/alt.exe".toList⟩],
        (fun _ => true) h.executable = true) ∧
      (∀ h ∈ [(⟨0, ["skyrim".toList], "C:/h.exe".toList⟩ : HandlerInfo),
          ⟨1, ["oblivion".toList, "other".toList], "C:/alt.exe".toList⟩], h.games ≠ []) ∧
      (∀ h ∈ [(⟨0, ["skyrim".toList], "C:/h.exe".toList⟩ : HandlerInfo),
          ⟨1, ["oblivion".toList, "other".toList], "C:/alt.exe".toList⟩],
        ∀ g ∈ h.games, ',' ∉ g) ∧
      (endsWithCI asciiCase (stripCall "\"C:\\MO\\NxmHandler.exe\" \"%1\"".toList)
          "nxmhandler.exe".toList = true ∨
        ∃ h ∈ [(⟨0, ["skyrim".toList], "C:/h.exe".toList⟩ : HandlerInfo),
          ⟨1, ["oblivion".toList, "other".toList], "C:/alt.exe".toList⟩],
          h.executable = stripCall "\"C:\\MO\\NxmHandler.exe\" \"%1\"".toList)) ∧
    pairs (load asciiCase (fun _ => true)
        (saveStore [⟨0, ["skyrim".toList], "C:/h.exe".toList⟩,
          ⟨1, ["oblivion".toList, "other".toList], "C:/alt.exe".toList⟩])
        "\"C:\\MO\\NxmHandler.exe\" \"%1\"".toList) =
      pairs [⟨0, ["skyrim".toList], "C:/h.exe".toList⟩,
        ⟨1, ["oblivion".toList, "other".toList], "C:/alt.exe".toList⟩] :=
  ⟨by decide,
   save_load_roundtrip asciiCase (fun _ => true) _ _ (by decide) (by decide) (by decide)
     (by decide)⟩

/-- C4 (counterexample): with an empty store and no file present, loading
with the OS command `"C:\gone\app.exe" "%1"` gives a registry holding the
entry for `C:\gone\app.exe`, an executable that does not exist. -/
theorem load_keeps_missing_global_handler :
    load asciiCase (fun _ => false) [] "\"C:\\gone\\app.exe\" \"%1\"".toList =
      [⟨0, knownGames.map Prod.snd, "C:\\gone\\app.exe".toList⟩] ∧
    ¬ (∀ h ∈ load asciiCase (fun _ => false) [] "\"C:\\gone\\app.exe\" \"%1\"".toList,
        (fun _ => false) h.executable = true) := by
  decide

/-- C4 (amended pruning): for every store, OS command and file-existence
state the loaded registry is a list `kept` of entries whose executables all
exist, followed by at most one more entry, the one built for the stripped OS
command with all known games; only that last entry, which is not read from
the store, may name an executable that does not exist. -/
theorem load_prunes_store_entries (cm : CaseMap) (fileExists : QString → Bool)
    (store : List (QString × QString)) (command : QString) :
    ∃ kept : List HandlerInfo,
      (∀ h ∈ kept, fileExists h.executable = true) ∧
      (load cm fileExists store command = kept ∨
        load cm fileExists store command =
          kept ++ [⟨(kept.length : Int), knownGames.map Prod.snd, stripCall command⟩]) :=
  ⟨loadRecords fileExists store 0 [], loadRecords_exist fileExists store,
    loadStore_cases cm fileExists store command⟩

/-- C8 (failing input): the store holds the one record for
`C:\Tools\Handler.exe`, which exists, and the OS command is
`"c:\tools\handler.exe" "%1"`; `loadStore` compares with `==`, does not find
the stripped command among the entries and appends it, so the loaded registry
holds two entries whose paths are equal without regard to case. -/
theorem load_case_variant_duplicate :
    load asciiCase (fun _ => true) [("skyrim".toList, "C:\\Tools\\Handler.exe".toList)]
        "\"c:\\tools\\handler.exe\" \"%1\"".toList =
      [⟨0, ["skyrim".toList], "C:\\Tools\\Handler.exe".toList⟩,
       ⟨1, knownGames.map Prod.snd, "c:\\tools\\handler.exe".toList⟩] ∧
    ciEq asciiCase "C:\\Tools\\Handler.exe".toList "c:\\tools\\handler.exe".toList = true ∧
    ¬ UniquePaths asciiCase
      (load asciiCase (fun _ => true) [("skyrim".toList, "C:\\Tools\\Handler.exe".toList)]
        "\"c:\\tools\\handler.exe\" \"%1\"".toList) := by
  decide

end HandlerStorage
